import Mathlib

/-!
Shallow embedding of the `mtrs` matrix library (Rust) at element type `ℤ`.

The Rust crate stores a dense matrix row-major in a flat vector together
with its `height` and `width`.  Every definition below is translated
directly from the corresponding Rust item in `src/matrix.rs`,
`src/math.rs` and `src/impls/basic.rs`:

* a Rust operation that can panic is embedded as an `Option`-returning
  function, `none` marking the panic;
* `usize` arithmetic inside `resize` is embedded with explicit wrapping
  (mod `2 ^ 64`) operators, matching release-mode two's-complement
  semantics of Rust integer overflow;
* in-bounds slice reads (in-bounds for every input the theorems quantify
  over) are embedded with `List.getD`;
* the deferred division closing `determinant`, and the reciprocal in
  `inverse` and `scalar_div`, use `Int.tdiv`, truncation toward zero,
  exactly the `/` of Rust integers.
-/

namespace Mtrs

/-- The `Matrix<T>` struct of `src/lib.rs` at `T = ℤ`: a height, a width and
the row-major flat data vector. -/
structure Matrix where
  height : Nat
  width : Nat
  data : List Int
deriving DecidableEq

/-- Invariant I1 of the spec: the flat data holds exactly `height * width`
elements. -/
def Matrix.wf (m : Matrix) : Prop :=
  m.data.length = m.height * m.width

instance (m : Matrix) : Decidable m.wf := by
  unfold Matrix.wf
  infer_instance

/-- The logical entry at row `r`, column `c`: the flat element at
`r * width + c` (the row-major layout of the struct). -/
def Matrix.entry (m : Matrix) (r c : Nat) : Int :=
  m.data.getD (r * m.width + c) 0

/-- Wrap-around modulus of 64-bit `usize` arithmetic. -/
def U64 : Nat := 2 ^ 64

/-- Wrapping `usize` addition (release-mode Rust `+`). -/
def wadd (a b : Nat) : Nat := (a + b) % U64

/-- Wrapping `usize` multiplication (release-mode Rust `*`). -/
def wmul (a b : Nat) : Nat := (a * b) % U64

/-- Wrapping `usize` subtraction (release-mode Rust `-`), two's complement. -/
def wsub (a b : Nat) : Nat := (a + (U64 - b % U64)) % U64

/-- Rust `Vec::resize(n, z)`: truncate to `n` elements or pad with `z`. -/
def listResize (l : List Int) (n : Nat) (z : Int) : List Int :=
  List.take n l ++ List.replicate (n - l.length) z

/-- Matrix.from_vec of `src/matrix.rs`: wraps a pre-built row-major vector
with the dimensions taken from the size value; performs no validation. -/
def Matrix.from_vec (size : Nat × Nat) (body : List Int) : Matrix :=
  { height := size.1, width := size.2, data := body }

/-- Matrix.from_slice of `src/matrix.rs`: copies a pre-built row-major
slice; performs no validation. -/
def Matrix.from_slice (size : Nat × Nat) (body : List Int) : Matrix :=
  { height := size.1, width := size.2, data := body }

/-- Matrix.zeros of `src/matrix.rs`. -/
def Matrix.zeros (size : Nat × Nat) : Matrix :=
  { height := size.1, width := size.2, data := List.replicate (size.2 * size.1) 0 }

/-- Matrix.ones of `src/matrix.rs`. -/
def Matrix.ones (size : Nat × Nat) : Matrix :=
  { height := size.1, width := size.2, data := List.replicate (size.2 * size.1) 1 }

/-- Matrix.size of `src/matrix.rs`. -/
def Matrix.size (m : Matrix) : Nat × Nat :=
  (m.height, m.width)

/-- Matrix.set of `src/matrix.rs`: bounds-checked write, each axis checked
independently.  The Rust method mutates the receiver and returns an
`io::Result<()>`; the embedding returns the result together with the
post-state of the matrix. -/
def Matrix.set (m : Matrix) (loc : Nat × Nat) (val : Int) :
    Except String Unit × Matrix :=
  if loc.1 ≥ m.height ∨ loc.2 ≥ m.width then
    (Except.error "Invalid bounds", m)
  else
    (Except.ok (), { m with data := m.data.set (loc.1 * m.width + loc.2) val })

/-- Matrix.get of `src/matrix.rs`: checked read at flat index
`h * width + w`, absent instead of panicking when past the end. -/
def Matrix.get (m : Matrix) (loc : Nat × Nat) : Option Int :=
  m.data.get? (loc.1 * m.width + loc.2)

/-- The Index impl of `src/impls/basic.rs`: unchecked read of the flat
element `h * width + w`; `none` embeds the slice-indexing panic. -/
def Matrix.index (m : Matrix) (pos : Nat × Nat) : Option Int :=
  m.data.get? (pos.1 * m.width + pos.2)

/-- Matrix.diag of `src/matrix.rs`: zeros of side `len`, then `set (i, i)`
for each diagonal value (a bare `usize` size normalizes to `(i, i)`). -/
def Matrix.diag (diagonal : List Int) : Matrix :=
  diagonal.enum.foldl
    (fun m p => (m.set (p.1, p.1) p.2).2)
    (Matrix.zeros (diagonal.length, diagonal.length))

/-- Matrix.identity of `src/matrix.rs`: `diag` of `one`s. -/
def Matrix.identity (size : Nat) : Matrix :=
  Matrix.diag (List.replicate size 1)

/-- Matrix.as_vec of `src/matrix.rs`: the row-major data as a list of
`height` rows of `width` elements. -/
def Matrix.as_vec (m : Matrix) : List (List Int) :=
  (List.range m.height).map
    (fun row => (List.range m.width).map
      (fun col => m.data.getD (row * m.width + col) 0))

/-- Matrix.get_col of `src/matrix.rs`: absent for a column index at or past
`width`, otherwise the column as a list. -/
def Matrix.get_col (m : Matrix) (index : Nat) : Option (List Int) :=
  if index ≥ m.width then
    none
  else
    some ((List.range m.height).map
      (fun row => m.data.getD (row * m.width + index) 0))

/-- Matrix.cols of `src/matrix.rs`: every column via `get_col` (the unwrap
never fires because the index is always in range). -/
def Matrix.cols (m : Matrix) : List (List Int) :=
  (List.range m.width).map (fun i => (m.get_col i).getD [])

/-- Matrix.erase of `src/matrix.rs`: bulk overwrite of the data with the
all-zero byte pattern, which at `ℤ` (integer elements) is the value `0`. -/
def Matrix.erase (m : Matrix) : Matrix :=
  { m with data := List.replicate m.data.length 0 }

/-- Matrix.resize of `src/matrix.rs`: adjust the height first by whole rows
(growing or, through usize wrap-around, truncating the flat vector), then
the width row by row.  The length expressions mirror the Rust source
verbatim, including its wrapping `usize` arithmetic. -/
def Matrix.resize (m : Matrix) (size : Nat × Nat) : Matrix :=
  let height := size.1
  let width := size.2
  let m1 :=
    if m.height ≠ height then
      { m with
        data := listResize m.data
          (wadd (wmul m.height m.width) (wmul (wsub height m.height) m.width)) 0,
        height := height }
    else m
  if m1.width ≠ width then
    let new_dat := m1.as_vec.map
      (fun entry => listResize entry (wsub (wadd entry.length width) m1.width) 0)
    { m1 with width := width, data := new_dat.flatten }
  else m1

/-- Matrix.scalar_add of `src/math.rs`. -/
def Matrix.scalar_add (m : Matrix) (value : Int) : Matrix :=
  Matrix.from_vec (m.height, m.width) (m.data.map (fun x => x + value))

/-- Matrix.scalar_sub of `src/math.rs`. -/
def Matrix.scalar_sub (m : Matrix) (value : Int) : Matrix :=
  Matrix.from_vec (m.height, m.width) (m.data.map (fun x => x - value))

/-- Matrix.scalar_mul of `src/math.rs`. -/
def Matrix.scalar_mul (m : Matrix) (value : Int) : Matrix :=
  Matrix.from_vec (m.height, m.width) (m.data.map (fun x => x * value))

/-- Matrix.scalar_div of `src/math.rs` (Rust integer division truncates
toward zero). -/
def Matrix.scalar_div (m : Matrix) (value : Int) : Matrix :=
  Matrix.from_vec (m.height, m.width) (m.data.map (fun x => Int.tdiv x value))

/-- The Add impl of `src/impls/math.rs`: elementwise sum; `none` embeds the
unconditional crash on mismatched sizes. -/
def Matrix.add (m other : Matrix) : Option Matrix :=
  if m.size ≠ other.size then
    none
  else
    some (Matrix.from_vec m.size
      (m.data.enum.map (fun p => p.2 + other.data.getD p.1 0)))

/-- The Sub impl of `src/impls/math.rs`: elementwise difference; `none`
embeds the unconditional crash on mismatched sizes. -/
def Matrix.sub (m other : Matrix) : Option Matrix :=
  if m.size ≠ other.size then
    none
  else
    some (Matrix.from_vec m.size
      (m.data.enum.map (fun p => p.2 - other.data.getD p.1 0)))

/-- The inner product of the Mul impl: zip the row with the column, multiply
pairwise, fold with addition from zero. -/
def dot (row col : List Int) : Int :=
  ((row.zip col).map (fun p => p.1 * p.2)).foldl (fun acc x => acc + x) 0

/-- The Mul impl of `src/math.rs`: explicit panic on `width ≠ other.height`,
then one output row per `as_vec` row holding the products against every
column of `other`; reading `body[0]` panics (hence `none`) when the left
height is zero. -/
def Matrix.mul (m other : Matrix) : Option Matrix :=
  if m.width ≠ other.height then
    none
  else
    let body := m.as_vec.map (fun row => other.cols.map (fun col => dot row col))
    match body.head? with
    | none => none
    | some b0 => some (Matrix.from_vec (body.length, b0.length) body.flatten)

/-- Matrix.transpose of `src/math.rs`: builds the transposed rows from
`as_vec`, then writes the flattened data back and assigns
`height := transposed[0].len()` and `width := transposed.len()`.  The two
`none` branches embed the panics of `v[0]` on a zero-height receiver and of
`transposed[0]` on a zero-width receiver. -/
def Matrix.transpose (m : Matrix) : Option Matrix :=
  let v := m.as_vec
  match v.head? with
  | none => none
  | some r0 =>
    let transposed := (List.range r0.length).map
      (fun i => (List.range v.length).map (fun j => (v.getD j []).getD i 0))
    match transposed.head? with
    | none => none
    | some t0 =>
      some { height := t0.length, width := transposed.length,
             data := transposed.flatten }

/-- The pivot-search while loop of Matrix.determinant: starting at `i`,
advance while the index is below `width` and the column-`i` entry of that
row is zero.  Structural fuel `width - i` covers every iteration the loop
can make. -/
def findPivotAux (mat : List Int) (w i : Nat) : Nat → Nat → Nat
  | 0, idx => idx
  | fuel + 1, idx =>
    if idx < w ∧ mat.getD (idx * w + i) 0 = 0 then
      findPivotAux mat w i fuel (idx + 1)
    else
      idx

/-- Swap of two flat elements, reading both before writing (Rust mem::swap). -/
def swapIdx (l : List Int) (a b : Nat) : List Int :=
  let x := l.getD a 0
  let y := l.getD b 0
  (l.set a y).set b x

/-- The row-swap loop of Matrix.determinant: swap column `j` of rows `index`
and `i` for every `j` below `n`. -/
def swapRows (mat : List Int) (w i index n : Nat) : List Int :=
  (List.range n).foldl (fun mm j => swapIdx mm (index * w + j) (i * w + j)) mat

/-- One inner elimination row of Matrix.determinant: with `diag = temp[i]`
and `row = mat[j][i]` read up front, replace `mat[j][k]` by
`diag * mat[j][k] - row * temp[k]` for every column `k`. -/
def elimRow (mat : List Int) (w n : Nat) (temp : List Int) (i j : Nat) : List Int :=
  let diag := temp.getD i 0
  let row := mat.getD (j * w + i) 0
  (List.range n).foldl
    (fun mm k => mm.set (j * w + k) (diag * mm.getD (j * w + k) 0 - row * temp.getD k 0))
    mat

/-- The mutable state threaded through the elimination of
Matrix.determinant. -/
structure DetState where
  det : Int
  total : Int
  mat : List Int
deriving DecidableEq

/-- One iteration of the outer pivot loop of Matrix.determinant: pivot
search, skip when the search ran off the end, row swap with the odd-distance
sign flip, snapshot of the pivot row, then fraction-free elimination of
every lower row, multiplying the scale accumulator by the pivot each time. -/
def detStep (n w : Nat) (s : DetState) (i : Nat) : DetState :=
  let index := findPivotAux s.mat w i (w - i) i
  if index = n then
    s
  else
    let det1 := if index ≠ i ∧ (index - i) % 2 ≠ 0 then 0 - s.det else s.det
    let mat1 := if index ≠ i then swapRows s.mat w i index n else s.mat
    let temp := (List.range n).map (fun j => mat1.getD (i * w + j) 0)
    let res := (List.range' (i + 1) (n - (i + 1))).foldl
      (fun (p : List Int × Int) j => (elimRow p.1 w n temp i j, p.2 * temp.getD i 0))
      (mat1, s.total)
    { det := det1, total := res.2, mat := res.1 }

/-- The body of Matrix.determinant after the squareness check: run the
elimination, multiply the sign accumulator by every diagonal entry, and
close with the single deferred (truncating) division `det / total`. -/
def detCore (m : Matrix) : Int :=
  let n := m.height
  let w := m.width
  let fin := (List.range n).foldl (detStep n w) { det := 1, total := 1, mat := m.data }
  let det2 := (List.range n).foldl (fun d i => d * fin.mat.getD (i * w + i) 0) fin.det
  Int.tdiv det2 fin.total

/-- Matrix.determinant of `src/math.rs`: absent for a non-square receiver,
otherwise the fraction-free elimination result. -/
def Matrix.determinant (m : Matrix) : Option Int :=
  if m.height ≠ m.width then none else some (detCore m)

/-- Matrix.inverse of `src/math.rs`: absent when non-square or when the
determinant is zero, otherwise the scalar product of the receiver with
`one / det` (the unwrap never fires: the receiver is square there). -/
def Matrix.inverse (m : Matrix) : Option Matrix :=
  if m.height ≠ m.width then
    none
  else
    let det := detCore m
    if det = 0 then none else some (m.scalar_mul (Int.tdiv 1 det))

end Mtrs

/-! ## Claim theorems -/

/-- C1: the spec claims `determinant` returns the true mathematical
determinant for every square integer matrix, and `Some 30` on the given
4x4 example.  The example holds (and 30 is the true determinant), but the
universal claim fails: on the cyclic permutation matrix of size 3 the
pivot search swaps rows 0 and 2 — an even distance — without flipping the
sign, so the code returns `Some (-1)` while the true determinant
(Mathlib's `Matrix.det`) is `1`. -/
theorem c1_determinant_exactness_eval :
    Mtrs.Matrix.determinant
      (Mtrs.Matrix.from_vec (4, 4) [1,0,2,-1, 3,0,0,5, 2,1,4,-3, 1,0,5,0]) = some 30 ∧
    (!![1,0,2,-1; 3,0,0,5; 2,1,4,-3; 1,0,5,0] : Matrix (Fin 4) (Fin 4) ℤ).det = 30 ∧
    Mtrs.Matrix.determinant
      (Mtrs.Matrix.from_vec (3, 3) [0,1,0, 0,0,1, 1,0,0]) = some (-1) ∧
    (!![0,1,0; 0,0,1; 1,0,0] : Matrix (Fin 3) (Fin 3) ℤ).det = 1 := by
  refine ⟨by decide, ?_, by decide, ?_⟩
  · norm_num [Matrix.det_succ_row_zero, Fin.sum_univ_succ, Fin.succAbove, Fin.lt_def,
      Matrix.det_fin_three]
    decide
  · norm_num [Matrix.det_fin_three]

/-- C2: the spec claims `inverse(A) * A` equals the identity whenever the
inverse is present.  The code computes `inverse` as the scalar product of
the matrix by `one / det`, which is not the matrix inverse: for
`A = [[1,1],[0,1]]` (determinant 1, so the inverse is present and equals
`A` itself) the product `inverse(A) * A` is `[[1,2],[0,1]]`, not the
identity. -/
theorem c2_inverse_product_eval :
    Mtrs.Matrix.inverse (Mtrs.Matrix.from_vec (2, 2) [1,1,0,1]) =
      some (Mtrs.Matrix.from_vec (2, 2) [1,1,0,1]) ∧
    Mtrs.Matrix.mul (Mtrs.Matrix.from_vec (2, 2) [1,1,0,1])
      (Mtrs.Matrix.from_vec (2, 2) [1,1,0,1]) =
      some (Mtrs.Matrix.from_vec (2, 2) [1,2,0,1]) ∧
    Mtrs.Matrix.from_vec (2, 2) [1,2,0,1] ≠ Mtrs.Matrix.identity 2 := by
  refine ⟨by decide, by decide, by decide⟩

/-- C3: the spec claims `transpose()` swaps height and width and moves the
element at `(r, c)` to `(c, r)`.  The code reorders the data into the
transposed row-major sequence but then assigns `height := transposed[0].len()`
(the old height) and `width := transposed.len()` (the old width), so on the
2x3 matrix `[[1,2,3],[4,5,6]]` the result keeps shape `(2, 3)` instead of
`(3, 2)`, and the element formerly at `(0, 1)` (value 2) is not at `(1, 0)`
(which reads 5). -/
theorem c3_transpose_dims_eval :
    Mtrs.Matrix.transpose (Mtrs.Matrix.from_vec (2, 3) [1,2,3,4,5,6]) =
      some (Mtrs.Matrix.from_vec (2, 3) [1,4,2,5,3,6]) ∧
    (Mtrs.Matrix.from_vec (2, 3) [1,4,2,5,3,6]).height = 2 ∧
    (Mtrs.Matrix.from_vec (2, 3) [1,4,2,5,3,6]).width = 3 ∧
    Mtrs.Matrix.entry (Mtrs.Matrix.from_vec (2, 3) [1,4,2,5,3,6]) 1 0 = 5 ∧
    Mtrs.Matrix.entry (Mtrs.Matrix.from_vec (2, 3) [1,2,3,4,5,6]) 0 1 = 2 := by
  refine ⟨by decide, rfl, rfl, by decide, by decide⟩

/-- C4: the spec claims transpose is involutive for any shape.  Because the
code does not swap height and width (see C3), applying it twice to the 2x3
matrix `[[1,2,3],[4,5,6]]` yields `(2, 3)` data `[1,5,4,3,2,6]`, not the
original matrix. -/
theorem c4_transpose_involution_eval :
    (Mtrs.Matrix.transpose (Mtrs.Matrix.from_vec (2, 3) [1,2,3,4,5,6])).bind
        Mtrs.Matrix.transpose =
      some (Mtrs.Matrix.from_vec (2, 3) [1,5,4,3,2,6]) ∧
    Mtrs.Matrix.from_vec (2, 3) [1,5,4,3,2,6] ≠
      Mtrs.Matrix.from_vec (2, 3) [1,2,3,4,5,6] := by
  refine ⟨by decide, by decide⟩

/-- C8 counterexample: `from_vec((2,2), [1,2,3])` neither asserts nor
returns an error: it silently produces a matrix whose data length 3 differs
from `height * width = 4`, violating invariant I1. -/
theorem c8_from_vec_no_check_cex :
    Mtrs.Matrix.from_vec (2, 2) [1,2,3] =
      { height := 2, width := 2, data := [1,2,3] } ∧
    ¬ (Mtrs.Matrix.from_vec (2, 2) [1,2,3]).wf ∧
    Mtrs.Matrix.from_slice (2, 2) [1,2,3] =
      { height := 2, width := 2, data := [1,2,3] } ∧
    ¬ (Mtrs.Matrix.from_slice (2, 2) [1,2,3]).wf := by
  refine ⟨rfl, by decide, rfl, by decide⟩

/-- C8 amended: `from_vec` and `from_slice` perform no validation at all —
for every size and data sequence they construct the matrix with the given
dimensions and the data passed through unchanged (neither truncated nor
padded); upholding `data.length == height * width` is entirely the
caller's responsibility. -/
theorem c8_from_vec_unchecked (size : Nat × Nat) (body : List Int) :
    Mtrs.Matrix.from_vec size body =
      { height := size.1, width := size.2, data := body } ∧
    Mtrs.Matrix.from_slice size body =
      { height := size.1, width := size.2, data := body } :=
  ⟨rfl, rfl⟩

/-- C9 counterexample: on the 2x2 matrix `[1,2,3,4]`, indexing at `(0, 2)`
has its column index past the width, yet the flat index `0*2+2 = 2` is in
range, so the Index impl does not panic: it returns the element `3` (which
logically lives at `(1, 0)`). -/
theorem c9_index_no_panic_cex :
    Mtrs.Matrix.index (Mtrs.Matrix.from_vec (2, 2) [1,2,3,4]) (0, 2) = some 3 ∧
    (Mtrs.Matrix.from_vec (2, 2) [1,2,3,4]).width ≤ 2 := by
  refine ⟨by decide, by decide⟩

/-- C9 amended: the indexing sugar `m[(r, c)]` panics exactly when the flat
index `r * width + c` reaches past the end of the data — not for every pair
with `r ≥ height` or `c ≥ width` — and `get` is its non-fatal counterpart,
returning exactly the same element (`none` standing for the panic). -/
theorem c9_index_flat_only (m : Mtrs.Matrix) (r c : Nat) :
    (Mtrs.Matrix.index m (r, c) = none ↔ m.data.length ≤ r * m.width + c) ∧
    Mtrs.Matrix.get m (r, c) = Mtrs.Matrix.index m (r, c) :=
  ⟨List.get?_eq_none, rfl⟩

/-! ## Shared helper lemmas -/

/-- Element of a map over a range, by default-valued lookup. -/
theorem range_map_getD {α : Type} (f : Nat → α) (d : α) (a i : Nat) (hi : i < a) :
    ((List.range a).map f).getD i d = f i := by
  rw [List.getD_eq_getElem _ _ (by simpa using hi)]
  simp

/-- Flat length of a list of rows of one common length. -/
theorem flatten_length_const (rows : List (List Int)) (b : Nat)
    (hb : ∀ r ∈ rows, r.length = b) : rows.flatten.length = rows.length * b := by
  induction rows with
  | nil => simp
  | cons r rest ih =>
    simp only [List.flatten_cons, List.length_append, List.length_cons]
    rw [hb r (by simp), ih (fun q hq => hb q (by simp [hq]))]
    ring

/-- Row-major lookup into the flattening of rows of one common length. -/
theorem flatten_getD_const (rows : List (List Int)) (b : Nat)
    (hb : ∀ r ∈ rows, r.length = b) (i j : Nat) (hi : i < rows.length) (hj : j < b) :
    rows.flatten.getD (i * b + j) 0 = (rows.getD i []).getD j 0 := by
  induction rows generalizing i with
  | nil => simp at hi
  | cons r rest ih =>
    have hr : r.length = b := hb r (by simp)
    rcases i with _ | i
    · simp only [List.flatten_cons, Nat.zero_mul, Nat.zero_add]
      rw [List.getD_append _ _ _ _ (by omega)]
      rfl
    · simp only [List.flatten_cons]
      rw [List.getD_append_right _ _ _ _ (by
        have : b ≤ (i + 1) * b + j := by
          calc b ≤ (i + 1) * b := by nlinarith
            _ ≤ (i + 1) * b + j := by omega
        omega)]
      have harith : (i + 1) * b + j - r.length = i * b + j := by
        have : (i + 1) * b = i * b + b := by ring
        omega
      rw [harith, ih (fun q hq => hb q (by simp [hq])) i (by simpa using hi)]
      rfl

/-- A flat index `r * w + c` with `c < w` is below `h * w` exactly when
`r < h`. -/
theorem flat_lt (r c w h : Nat) (hc : c < w) : r * w + c < h * w ↔ r < h := by
  constructor
  · intro hk
    by_contra hr
    push_neg at hr
    have : h * w ≤ r * w := Nat.mul_le_mul_right w hr
    omega
  · intro hr
    have h1 : r + 1 ≤ h := hr
    have h2 : (r + 1) * w ≤ h * w := Nat.mul_le_mul_right w h1
    have h3 : (r + 1) * w = r * w + w := by ring
    omega

/-- On in-range pairs the row-major flattening `r * w + c` is injective. -/
theorem flat_inj (r c q d w : Nat) (hc : c < w) (hd : d < w)
    (h : q * w + d = r * w + c) : q = r ∧ d = c := by
  have hqr : q = r := by
    rcases Nat.lt_trichotomy q r with h1 | h1 | h1
    · have h2 : (q + 1) * w ≤ r * w := Nat.mul_le_mul_right w h1
      have h3 : (q + 1) * w = q * w + w := by ring
      omega
    · exact h1
    · have h2 : (r + 1) * w ≤ q * w := Nat.mul_le_mul_right w h1
      have h3 : (r + 1) * w = r * w + w := by ring
      omega
  subst hqr
  omega

/-- Length of the embedded Vec::resize. -/
theorem listResize_length (l : List Int) (n : Nat) (z : Int) :
    (Mtrs.listResize l n z).length = n := by
  simp only [Mtrs.listResize, List.length_append, List.length_take, List.length_replicate]
  omega

/-- Lookup into the embedded Vec::resize below the new length: the old
element when still present, the pad value otherwise. -/
theorem listResize_getD (l : List Int) (n : Nat) (z : Int) (k : Nat) (hk : k < n) :
    (Mtrs.listResize l n z).getD k 0 =
      if k < l.length then l.getD k 0 else z := by
  unfold Mtrs.listResize
  by_cases h : k < l.length
  · rw [List.getD_append _ _ _ _ (by simp; omega), if_pos h]
    rw [List.getD_eq_getElem _ _ (by simp; omega), List.getD_eq_getElem _ _ h]
    exact List.getElem_take _
  · rw [List.getD_append_right _ _ _ _ (by simp; omega), if_neg h]
    rw [List.getD_eq_getElem _ _ (by simp; omega)]
    exact List.getElem_replicate _ _

/-- The wrapped length expression of the height phase of resize equals the
unwrapped `h' * w` whenever neither the old nor the new flat size reaches
`2 ^ 64` (the wrap introduced by shrinking cancels exactly). -/
theorem wrap_height_target (h w h' : Nat) (h1 : h * w < Mtrs.U64) (h2 : h' * w < Mtrs.U64) :
    Mtrs.wadd (Mtrs.wmul h w) (Mtrs.wmul (Mtrs.wsub h' h) w) = h' * w := by
  rcases Nat.eq_zero_or_pos w with hw | hw
  · subst hw
    simp [Mtrs.wadd, Mtrs.wmul, Mtrs.wsub, Mtrs.U64]
  · have hU : 0 < Mtrs.U64 := by
      simp [Mtrs.U64]
    have hh : h < Mtrs.U64 := by
      have : h ≤ h * w := Nat.le_mul_of_pos_right h hw
      omega
    unfold Mtrs.wadd Mtrs.wmul Mtrs.wsub
    rw [Nat.mod_eq_of_lt hh, Nat.mod_eq_of_lt h1]
    have c1 : (h' + (Mtrs.U64 - h)) % Mtrs.U64 * w % Mtrs.U64 ≡
        (h' + (Mtrs.U64 - h)) * w [MOD Mtrs.U64] :=
      (Nat.mod_modEq _ _).trans ((Nat.mod_modEq _ _).mul_right w)
    have c2 : h * w + (h' + (Mtrs.U64 - h)) % Mtrs.U64 * w % Mtrs.U64 ≡
        h * w + (h' + (Mtrs.U64 - h)) * w [MOD Mtrs.U64] :=
      (Nat.ModEq.refl _).add c1
    have c3 : h * w + (h' + (Mtrs.U64 - h)) * w = h' * w + Mtrs.U64 * w := by
      rw [← Nat.add_mul, ← Nat.add_mul]
      congr 1
      omega
    have c4 : h' * w + Mtrs.U64 * w ≡ h' * w + 0 [MOD Mtrs.U64] :=
      (Nat.ModEq.refl _).add (Nat.modEq_zero_iff_dvd.2 ⟨w, rfl⟩)
    have c5 : h * w + (h' + (Mtrs.U64 - h)) % Mtrs.U64 * w % Mtrs.U64 ≡
        h' * w + 0 [MOD Mtrs.U64] := by
      have c2' := c2
      rw [c3] at c2'
      exact c2'.trans c4
    have c6 : (h * w + (h' + (Mtrs.U64 - h)) % Mtrs.U64 * w % Mtrs.U64) % Mtrs.U64 =
        (h' * w + 0) % Mtrs.U64 := c5
    rw [Nat.mod_eq_of_lt (by omega : h' * w + 0 < Mtrs.U64)] at c6
    omega

/-- The wrapped length expression of the width phase of resize equals the
new width whenever `w + w'` does not reach `2 ^ 64`. -/
theorem wrap_width_target (w w' : Nat) (h3 : w + w' < Mtrs.U64) :
    Mtrs.wsub (Mtrs.wadd w w') w = w' := by
  unfold Mtrs.wadd Mtrs.wsub
  have hw : w < Mtrs.U64 := by omega
  have hw' : w' < Mtrs.U64 := by omega
  rw [Nat.mod_eq_of_lt h3, Nat.mod_eq_of_lt hw]
  have : w + w' + (Mtrs.U64 - w) = w' + Mtrs.U64 := by omega
  rw [this, Nat.add_mod_right]
  exact Nat.mod_eq_of_lt hw'


/-- Length of the height phase of resize: the wrapped target collapses to
`h' * width`. -/
theorem phase1_length (m : Mtrs.Matrix) (h' : Nat)
    (hb1 : m.height * m.width < Mtrs.U64) (hb2 : h' * m.width < Mtrs.U64) :
    (Mtrs.listResize m.data
      (Mtrs.wadd (Mtrs.wmul m.height m.width)
        (Mtrs.wmul (Mtrs.wsub h' m.height) m.width)) 0).length = h' * m.width := by
  rw [listResize_length, wrap_height_target m.height m.width h' hb1 hb2]

/-- Lookup into the height phase of resize: old element while inside the old
data, zero in an appended row. -/
theorem phase1_getD (m : Mtrs.Matrix) (h' : Nat)
    (hb1 : m.height * m.width < Mtrs.U64) (hb2 : h' * m.width < Mtrs.U64)
    (k : Nat) (hk : k < h' * m.width) :
    (Mtrs.listResize m.data
      (Mtrs.wadd (Mtrs.wmul m.height m.width)
        (Mtrs.wmul (Mtrs.wsub h' m.height) m.width)) 0).getD k 0 =
      if k < m.data.length then m.data.getD k 0 else 0 := by
  rw [wrap_height_target m.height m.width h' hb1 hb2]
  exact listResize_getD m.data _ 0 k hk

/-- Length of the width phase of resize applied to a matrix `x`: every row
is rebuilt at the new width. -/
theorem phase2_length (x : Mtrs.Matrix) (w' : Nat) (hb3 : x.width + w' < Mtrs.U64) :
    ((x.as_vec.map (fun e =>
      Mtrs.listResize e (Mtrs.wsub (Mtrs.wadd e.length w') x.width) 0)).flatten).length =
      x.height * w' := by
  rw [flatten_length_const _ w']
  · simp [Mtrs.Matrix.as_vec]
  · intro row hrow
    rcases List.mem_map.1 hrow with ⟨orig, horig, rfl⟩
    rcases List.mem_map.1 horig with ⟨i, _, rfl⟩
    rw [listResize_length]
    simp only [List.length_map, List.length_range]
    exact wrap_width_target x.width w' hb3

/-- Lookup into the width phase of resize applied to a matrix `x`: the old
row element while inside the old width, zero in an appended column. -/
theorem phase2_getD (x : Mtrs.Matrix) (w' : Nat) (hb3 : x.width + w' < Mtrs.U64)
    (r c : Nat) (hr : r < x.height) (hc : c < w') :
    ((x.as_vec.map (fun e =>
      Mtrs.listResize e (Mtrs.wsub (Mtrs.wadd e.length w') x.width) 0)).flatten).getD
        (r * w' + c) 0 =
      if c < x.width then x.data.getD (r * x.width + c) 0 else 0 := by
  have hrows : ∀ row ∈ x.as_vec.map (fun e =>
      Mtrs.listResize e (Mtrs.wsub (Mtrs.wadd e.length w') x.width) 0),
      row.length = w' := by
    intro row hrow
    rcases List.mem_map.1 hrow with ⟨orig, horig, rfl⟩
    rcases List.mem_map.1 horig with ⟨i, _, rfl⟩
    rw [listResize_length]
    simp only [List.length_map, List.length_range]
    exact wrap_width_target x.width w' hb3
  have hcount : (x.as_vec.map (fun e =>
      Mtrs.listResize e (Mtrs.wsub (Mtrs.wadd e.length w') x.width) 0)).length =
      x.height := by
    simp [Mtrs.Matrix.as_vec]
  rw [flatten_getD_const _ w' hrows r c (by rw [hcount]; exact hr) hc]
  have hvr : r < x.as_vec.length := by
    simp only [Mtrs.Matrix.as_vec, List.length_map, List.length_range]
    exact hr
  have hrow_r : (x.as_vec.map (fun e =>
      Mtrs.listResize e (Mtrs.wsub (Mtrs.wadd e.length w') x.width) 0)).getD r [] =
      Mtrs.listResize ((List.range x.width).map
          (fun col => x.data.getD (r * x.width + col) 0))
        (Mtrs.wsub (Mtrs.wadd ((List.range x.width).map
          (fun col => x.data.getD (r * x.width + col) 0)).length w') x.width) 0 := by
    have hx : x.as_vec[r] = (List.range x.width).map
        (fun col => x.data.getD (r * x.width + col) 0) := by
      show (Mtrs.Matrix.as_vec x)[r] = _
      unfold Mtrs.Matrix.as_vec
      rw [List.getElem_map]
      simp only [List.getElem_range]
    rw [List.getD_eq_getElem _ _ (by rw [hcount]; exact hr), List.getElem_map, hx]
  rw [hrow_r]
  have hlen : ((List.range x.width).map
      (fun col => x.data.getD (r * x.width + col) 0)).length = x.width := by
    simp
  rw [hlen, wrap_width_target x.width w' hb3, listResize_getD _ _ _ c hc, hlen]
  by_cases hcx : c < x.width
  · rw [if_pos hcx, if_pos hcx, range_map_getD _ _ _ _ hcx]
  · rw [if_neg hcx, if_neg hcx]

/-- Full characterization of resize: the result has the requested shape,
its data length re-establishes invariant I1, and every entry is the old
entry inside the old bounds and zero outside them.  The `U64` bounds are
the no-overflow side conditions of the wrapping length arithmetic; they
hold for every matrix a real `Vec` can represent. -/
theorem resize_spec (m : Mtrs.Matrix) (h' w' : Nat) (hwf : m.wf)
    (hb1 : m.height * m.width < Mtrs.U64) (hb2 : h' * m.width < Mtrs.U64)
    (hb3 : m.width + w' < Mtrs.U64) :
    (m.resize (h', w')).height = h' ∧ (m.resize (h', w')).width = w' ∧
    (m.resize (h', w')).data.length = h' * w' ∧
    ∀ r, r < h' → ∀ c, c < w' →
      (m.resize (h', w')).entry r c =
        if r < m.height ∧ c < m.width then m.entry r c else 0 := by
  by_cases h1 : m.height = h'
  · by_cases h2 : m.width = w'
    · have hres : m.resize (h', w') = m := by
        simp only [Mtrs.Matrix.resize]
        rw [if_neg (show ¬(m.height ≠ h') from by simp [h1]),
            if_neg (show ¬(m.width ≠ w') from by simp [h2])]
      rw [hres]
      refine ⟨h1, h2, by rw [hwf, h1, h2], ?_⟩
      intro r hr c hc
      rw [if_pos ⟨by omega, by omega⟩]
    · have hres : m.resize (h', w') = Mtrs.Matrix.mk m.height w'
          ((m.as_vec.map (fun e =>
            Mtrs.listResize e (Mtrs.wsub (Mtrs.wadd e.length w') m.width) 0)).flatten) := by
        simp only [Mtrs.Matrix.resize]
        rw [if_neg (show ¬(m.height ≠ h') from by simp [h1]),
            if_pos (show m.width ≠ w' from h2)]
      rw [hres]
      refine ⟨h1, rfl, ?_, ?_⟩
      · show (_ : List Int).length = h' * w'
        rw [phase2_length m w' hb3, h1]
      · intro r hr c hc
        show (_ : List Int).getD (r * w' + c) 0 = _
        rw [phase2_getD m w' hb3 r c (by omega) hc]
        by_cases hcm : c < m.width
        · rw [if_pos hcm, if_pos ⟨by omega, hcm⟩]
          rfl
        · rw [if_neg hcm, if_neg (by tauto)]
  · simp only [Mtrs.Matrix.resize]
    rw [if_pos (show m.height ≠ h' from h1)]
    set M1 : Mtrs.Matrix := Mtrs.Matrix.mk h' m.width
        (Mtrs.listResize m.data
          (Mtrs.wadd (Mtrs.wmul m.height m.width)
            (Mtrs.wmul (Mtrs.wsub h' m.height) m.width)) 0) with hM1
    have hM1h : M1.height = h' := by rw [hM1]
    have hM1w : M1.width = m.width := by rw [hM1]
    have hM1data : M1.data = Mtrs.listResize m.data
        (Mtrs.wadd (Mtrs.wmul m.height m.width)
          (Mtrs.wmul (Mtrs.wsub h' m.height) m.width)) 0 := by rw [hM1]
    by_cases h2 : m.width = w'
    · rw [if_neg (show ¬(M1.width ≠ w') from by rw [hM1w, h2]; simp)]
      refine ⟨hM1h, by rw [hM1w, h2], ?_, ?_⟩
      · rw [hM1data, phase1_length m h' hb1 hb2, h2]
      · intro r hr c hc
        have hcm : c < m.width := by omega
        show M1.data.getD (r * M1.width + c) 0 = _
        rw [hM1w, hM1data,
          phase1_getD m h' hb1 hb2 (r * m.width + c) ((flat_lt r c m.width h' hcm).2 hr),
          hwf]
        by_cases hrm : r < m.height
        · rw [if_pos ((flat_lt r c m.width m.height hcm).2 hrm), if_pos ⟨hrm, hcm⟩]
          rfl
        · rw [if_neg (by rw [flat_lt r c m.width m.height hcm]; exact hrm),
              if_neg (by tauto)]
    · rw [if_pos (show M1.width ≠ w' from by rw [hM1w]; exact h2)]
      have hb3' : M1.width + w' < Mtrs.U64 := by rw [hM1w]; exact hb3
      refine ⟨hM1h, rfl, ?_, ?_⟩
      · show (_ : List Int).length = h' * w'
        rw [phase2_length M1 w' hb3', hM1h]
      · intro r hr c hc
        show (_ : List Int).getD (r * w' + c) 0 = _
        rw [phase2_getD M1 w' hb3' r c (by rw [hM1h]; exact hr) hc, hM1w, hM1data]
        by_cases hcm : c < m.width
        · rw [if_pos hcm,
            phase1_getD m h' hb1 hb2 (r * m.width + c) ((flat_lt r c m.width h' hcm).2 hr),
            hwf]
          by_cases hrm : r < m.height
          · rw [if_pos ((flat_lt r c m.width m.height hcm).2 hrm), if_pos ⟨hrm, hcm⟩]
            rfl
          · rw [if_neg (by rw [flat_lt r c m.width m.height hcm]; exact hrm),
                if_neg (by tauto)]
        · rw [if_neg hcm, if_neg (by tauto)]

/-- C5: resize yields the matrix of the requested shape whose entry at
`(r, c)` is the old entry when both coordinates lie within the old bounds
and zero otherwise — appended rows and appended column positions are
zero-filled, shrinking truncates.  The `U64` hypotheses are the no-overflow
side conditions of the `usize` length arithmetic (always satisfied by a
real `Vec`); the height is adjusted first by whole rows, then the width row
by row, exactly as in the source. -/
theorem c5_resize_semantics (m : Mtrs.Matrix) (h' w' : Nat) (hwf : m.wf)
    (hb1 : m.height * m.width < Mtrs.U64) (hb2 : h' * m.width < Mtrs.U64)
    (hb3 : m.width + w' < Mtrs.U64) :
    (m.resize (h', w')).height = h' ∧ (m.resize (h', w')).width = w' ∧
    ∀ r, r < h' → ∀ c, c < w' →
      (m.resize (h', w')).entry r c =
        if r < m.height ∧ c < m.width then m.entry r c else 0 := by
  obtain ⟨a, b, _, d⟩ := resize_spec m h' w' hwf hb1 hb2 hb3
  exact ⟨a, b, d⟩

/-- Witness for C5 at the spec's own example: identity(2) resized to
`(3, 4)`. -/
theorem c5_resize_semantics_witness :
    ((Mtrs.Matrix.identity 2).resize (3, 4)).height = 3 ∧
    ((Mtrs.Matrix.identity 2).resize (3, 4)).width = 4 ∧
    ∀ r, r < 3 → ∀ c, c < 4 →
      ((Mtrs.Matrix.identity 2).resize (3, 4)).entry r c =
        if r < (Mtrs.Matrix.identity 2).height ∧ c < (Mtrs.Matrix.identity 2).width
        then (Mtrs.Matrix.identity 2).entry r c else 0 :=
  c5_resize_semantics (Mtrs.Matrix.identity 2) 3 4 (by decide) (by decide)
    (by decide) (by decide)

/-- C7: set errors exactly when the row reaches the height or the column
reaches the width (each axis checked independently); on error the matrix is
returned untouched, and on success only the entry at the written location
changes. -/
theorem c7_set_bounds (m : Mtrs.Matrix) (r c : Nat) (v : Int) (hwf : m.wf) :
    (m.height ≤ r ∨ m.width ≤ c → m.set (r, c) v = (Except.error "Invalid bounds", m)) ∧
    (r < m.height → c < m.width →
      (m.set (r, c) v).1 = Except.ok () ∧
      (m.set (r, c) v).2.height = m.height ∧
      (m.set (r, c) v).2.width = m.width ∧
      (m.set (r, c) v).2.entry r c = v ∧
      ∀ q, q < m.height → ∀ d, d < m.width → (q, d) ≠ (r, c) →
        (m.set (r, c) v).2.entry q d = m.entry q d) := by
  constructor
  · intro h
    unfold Mtrs.Matrix.set
    rw [if_pos]
    exact h
  · intro hr hc
    have hcond : ¬(((r, c) : Nat × Nat).1 ≥ m.height ∨ ((r, c) : Nat × Nat).2 ≥ m.width) := by
      push_neg
      exact ⟨hr, hc⟩
    unfold Mtrs.Matrix.set
    rw [if_neg hcond]
    have hin : r * m.width + c < m.data.length := by
      rw [hwf]
      exact (flat_lt r c m.width m.height hc).2 hr
    refine ⟨rfl, rfl, rfl, ?_, ?_⟩
    · show (m.data.set (r * m.width + c) v).getD (r * m.width + c) 0 = v
      rw [List.getD_eq_getElem _ _ (by rw [List.length_set]; exact hin), List.getElem_set]
      simp
    · intro q hq d hd hne
      have hqd : q * m.width + d < m.data.length := by
        rw [hwf]
        exact (flat_lt q d m.width m.height hd).2 hq
      show (m.data.set (r * m.width + c) v).getD (q * m.width + d) 0 =
        m.data.getD (q * m.width + d) 0
      rw [List.getD_eq_getElem _ _ (by rw [List.length_set]; exact hqd),
          List.getD_eq_getElem _ _ hqd, List.getElem_set]
      rw [if_neg]
      intro heq
      rcases flat_inj r c q d m.width hc hd heq.symm with ⟨hqq, hdd⟩
      exact hne (by rw [hqq, hdd])

/-- Witness for C7 on a concrete 2x3 matrix: an in-range write and the
independent-axis error both instantiated. -/
theorem c7_set_bounds_witness :
    ((Mtrs.Matrix.from_vec (2, 3) [1,2,3,4,5,6]).set (1, 1) 13).1 = Except.ok () ∧
    ((Mtrs.Matrix.from_vec (2, 3) [1,2,3,4,5,6]).set (1, 1) 13).2.height = 2 ∧
    ((Mtrs.Matrix.from_vec (2, 3) [1,2,3,4,5,6]).set (1, 1) 13).2.width = 3 ∧
    ((Mtrs.Matrix.from_vec (2, 3) [1,2,3,4,5,6]).set (1, 1) 13).2.entry 1 1 = 13 ∧
    ∀ q, q < 2 → ∀ d, d < 3 → (q, d) ≠ (1, 1) →
      ((Mtrs.Matrix.from_vec (2, 3) [1,2,3,4,5,6]).set (1, 1) 13).2.entry q d =
        (Mtrs.Matrix.from_vec (2, 3) [1,2,3,4,5,6]).entry q d := by
  have h := (c7_set_bounds (Mtrs.Matrix.from_vec (2, 3) [1,2,3,4,5,6]) 1 1 13
    (by decide)).2 (by decide) (by decide)
  exact h

/-- C10: the interface is not total on empty matrices: transpose panics
(embedded as `none`) whenever the receiver has zero height or zero width,
and the matrix product panics when the left operand has zero height even
when the inner dimensions agree. -/
theorem c10_empty_partiality (m m2 : Mtrs.Matrix) :
    (m.height = 0 ∨ m.width = 0 → m.transpose = none) ∧
    (m.height = 0 → m.width = m2.height → m.mul m2 = none) := by
  constructor
  · rintro (h | h)
    · simp [Mtrs.Matrix.transpose, Mtrs.Matrix.as_vec, h]
    · rcases hn : m.height with _ | k
      · simp [Mtrs.Matrix.transpose, Mtrs.Matrix.as_vec, hn]
      · simp [Mtrs.Matrix.transpose, Mtrs.Matrix.as_vec, hn, h, List.range_succ_eq_map]
  · intro h0 hw
    simp [Mtrs.Matrix.mul, Mtrs.Matrix.as_vec, h0, hw]

/-- Witness for C10: a 0x3 matrix built by zeros, and its product with a
compatible 3x2 matrix. -/
theorem c10_empty_partiality_witness :
    (Mtrs.Matrix.zeros (0, 3)).transpose = none ∧
    (Mtrs.Matrix.zeros (0, 3)).mul (Mtrs.Matrix.zeros (3, 2)) = none :=
  ⟨(c10_empty_partiality (Mtrs.Matrix.zeros (0, 3)) (Mtrs.Matrix.zeros (3, 2))).1
      (Or.inl rfl),
   (c10_empty_partiality (Mtrs.Matrix.zeros (0, 3)) (Mtrs.Matrix.zeros (3, 2))).2
      rfl rfl⟩

/-- A transpose that completes (does not panic) re-establishes invariant I1:
the flattened transposed rows hold `width * height` elements under the
assigned dimensions. -/
theorem transpose_some_wf (m t : Mtrs.Matrix) (ht : m.transpose = some t) : t.wf := by
  simp only [Mtrs.Matrix.transpose] at ht
  rcases hv : m.as_vec.head? with _ | r0
  · rw [hv] at ht
    simp at ht
  · rw [hv] at ht
    simp only [] at ht
    rcases hn : r0.length with _ | k
    · rw [hn] at ht
      simp at ht
    · rw [hn, List.range_succ_eq_map, List.map_cons, List.head?_cons] at ht
      simp only [Option.some.injEq] at ht
      subst ht
      show (_ : List Int).length = _
      rw [flatten_length_const _ m.as_vec.length]
      · simp [Nat.mul_comm]
      · intro row hrow
        rcases List.mem_cons.1 hrow with rfl | hrow
        · simp
        · rcases List.mem_map.1 hrow with ⟨i, _, rfl⟩
          simp

/-- A matrix product that completes (does not panic) satisfies invariant I1:
`height` rows of `other.width` products each. -/
theorem mul_some_wf (m m2 p : Mtrs.Matrix) (hp : m.mul m2 = some p) : p.wf := by
  simp only [Mtrs.Matrix.mul] at hp
  by_cases hwh : m.width = m2.height
  · rw [if_neg (by simpa using hwh)] at hp
    rcases hb : (m.as_vec.map (fun row => m2.cols.map (fun col => Mtrs.dot row col))).head?
      with _ | b0
    · rw [hb] at hp
      simp at hp
    · rw [hb] at hp
      simp only [Option.some.injEq] at hp
      subst hp
      have hrows : ∀ row ∈ m.as_vec.map (fun row => m2.cols.map (fun col => Mtrs.dot row col)),
          row.length = m2.width := by
        intro row hrow
        rcases List.mem_map.1 hrow with ⟨orig, _, rfl⟩
        simp [Mtrs.Matrix.cols]
      have hb0 : b0.length = m2.width :=
        hrows b0 (List.mem_of_mem_head? (by simp [hb]))
      simp only [Mtrs.Matrix.wf, Mtrs.Matrix.from_vec]
      rw [flatten_length_const _ m2.width hrows, hb0]
  · rw [if_pos hwh] at hp
    cases hp

/-- C6: invariant I1 (`data.length = height * width`) is preserved by every
operation: set (both outcomes), resize (under the usize no-overflow side
conditions), transpose and the matrix product whenever they complete, erase,
elementwise addition and subtraction, and the four scalar operations. -/
theorem c6_invariant_preserved (m m2 : Mtrs.Matrix) (loc : Nat × Nat) (v : Int)
    (h' w' : Nat) (hm : m.wf) (hm2 : m2.wf)
    (hb1 : m.height * m.width < Mtrs.U64) (hb2 : h' * m.width < Mtrs.U64)
    (hb3 : m.width + w' < Mtrs.U64) :
    ((m.set loc v).2).wf ∧
    (m.resize (h', w')).wf ∧
    (∀ t, m.transpose = some t → t.wf) ∧
    (m.erase).wf ∧
    (∀ s, m.add m2 = some s → s.wf) ∧
    (∀ s, m.sub m2 = some s → s.wf) ∧
    (∀ p, m.mul m2 = some p → p.wf) ∧
    (m.scalar_add v).wf ∧ (m.scalar_sub v).wf ∧
    (m.scalar_mul v).wf ∧ (m.scalar_div v).wf := by
  refine ⟨?_, ?_, fun t ht => transpose_some_wf m t ht, ?_, ?_, ?_,
    fun p hp => mul_some_wf m m2 p hp, ?_, ?_, ?_, ?_⟩
  · unfold Mtrs.Matrix.set
    by_cases h : loc.1 ≥ m.height ∨ loc.2 ≥ m.width
    · rw [if_pos h]
      exact hm
    · rw [if_neg h]
      show (m.data.set _ v).length = m.height * m.width
      rw [List.length_set]
      exact hm
  · obtain ⟨a, b, len, _⟩ := resize_spec m h' w' hm hb1 hb2 hb3
    show (m.resize (h', w')).data.length = _
    rw [len, a, b]
  · show (List.replicate m.data.length 0).length = m.height * m.width
    rw [List.length_replicate]
    exact hm
  · intro s hs
    unfold Mtrs.Matrix.add at hs
    by_cases hsz : m.size = m2.size
    · rw [if_neg (by simpa using hsz)] at hs
      simp only [Option.some.injEq] at hs
      subst hs
      simp only [Mtrs.Matrix.wf, Mtrs.Matrix.from_vec, Mtrs.Matrix.size,
        List.length_map, List.enum_length]
      exact hm
    · rw [if_pos hsz] at hs
      cases hs
  · intro s hs
    unfold Mtrs.Matrix.sub at hs
    by_cases hsz : m.size = m2.size
    · rw [if_neg (by simpa using hsz)] at hs
      simp only [Option.some.injEq] at hs
      subst hs
      simp only [Mtrs.Matrix.wf, Mtrs.Matrix.from_vec, Mtrs.Matrix.size,
        List.length_map, List.enum_length]
      exact hm
    · rw [if_pos hsz] at hs
      cases hs
  · show (m.data.map _).length = _
    rw [List.length_map]
    exact hm
  · show (m.data.map _).length = _
    rw [List.length_map]
    exact hm
  · show (m.data.map _).length = _
    rw [List.length_map]
    exact hm
  · show (m.data.map _).length = _
    rw [List.length_map]
    exact hm

/-- Witness for C6 on two concrete well-formed 2x2 matrices. -/
theorem c6_invariant_preserved_witness :
    (((Mtrs.Matrix.from_vec (2, 2) [1,2,3,4]).set (0, 1) 9).2).wf ∧
    ((Mtrs.Matrix.from_vec (2, 2) [1,2,3,4]).resize (3, 1)).wf ∧
    (∀ t, (Mtrs.Matrix.from_vec (2, 2) [1,2,3,4]).transpose = some t → t.wf) ∧
    ((Mtrs.Matrix.from_vec (2, 2) [1,2,3,4]).erase).wf ∧
    (∀ s, (Mtrs.Matrix.from_vec (2, 2) [1,2,3,4]).add
      (Mtrs.Matrix.identity 2) = some s → s.wf) ∧
    (∀ s, (Mtrs.Matrix.from_vec (2, 2) [1,2,3,4]).sub
      (Mtrs.Matrix.identity 2) = some s → s.wf) ∧
    (∀ p, (Mtrs.Matrix.from_vec (2, 2) [1,2,3,4]).mul
      (Mtrs.Matrix.identity 2) = some p → p.wf) ∧
    ((Mtrs.Matrix.from_vec (2, 2) [1,2,3,4]).scalar_add 5).wf ∧
    ((Mtrs.Matrix.from_vec (2, 2) [1,2,3,4]).scalar_sub 5).wf ∧
    ((Mtrs.Matrix.from_vec (2, 2) [1,2,3,4]).scalar_mul 5).wf ∧
    ((Mtrs.Matrix.from_vec (2, 2) [1,2,3,4]).scalar_div 5).wf :=
  c6_invariant_preserved (Mtrs.Matrix.from_vec (2, 2) [1,2,3,4])
    (Mtrs.Matrix.identity 2) (0, 1) 9 3 1 (by decide) (by decide)
    (by decide) (by decide) (by decide)
